import Mathlib

/-!
# FiltersDownloader: file-download-wrapper.js

A shallow embedding of `src/main/node/file-download-wrapper.js`.

* JavaScript strings are lists of characters.  Every character that `trim` and the
  regular expression `/[\r\n]+/` look at lies in the Basic Multilingual Plane, so
  working with code points instead of UTF-16 code units changes nothing here.
* A promise is modelled by its settle state; `resolve` and `reject` act only on a
  pending promise.
* The collaborators (`axios`, `fs.readFileSync`, `path.resolve`) are parameters.
-/

set_option autoImplicit false

namespace FileDownloadWrapper

/-! ## JavaScript values -/

/-- A JavaScript string. -/
abbrev JSString := List Char

/-- The JavaScript values a response field can hold. -/
inductive JSValue where
  | undefined
  | null
  | boolean (b : Bool)
  | number (n : Int)
  | string (s : JSString)
  | object
  deriving DecidableEq, Repr

/-- ToBoolean: `undefined`, `null`, `false`, `0` and `""` are falsy. -/
def JSValue.toBoolean : JSValue → Bool
  | .undefined => false
  | .null => false
  | .boolean b => b
  | .number n => n != 0
  | .string s => !s.isEmpty
  | .object => true

/-- The values a promise of this module rejects with, or the code throws. -/
inductive JSError where
  /-- `new Error(message)` -/
  | error (message : JSString)
  /-- the TypeError the runtime raises on a property read of `undefined` / `null`
  or on a call of something that is not a function -/
  | typeError
  /-- an error raised by a collaborator (transport or filesystem), by its code -/
  | external (code : JSString)
  deriving DecidableEq, Repr

/-- Settle state of a promise. -/
inductive PromiseState (α : Type) where
  | pending
  | fulfilled (value : α)
  | rejected (reason : JSError)
  deriving DecidableEq, Repr

/-- Calling the `resolve` function of a promise: only a pending promise changes. -/
def resolve {α : Type} (value : α) : PromiseState α → PromiseState α
  | .pending => .fulfilled value
  | settled => settled

/-- Calling the `reject` function of a promise: only a pending promise changes. -/
def reject {α : Type} (reason : JSError) : PromiseState α → PromiseState α
  | .pending => .rejected reason
  | settled => settled

/-! ## String built-ins -/

/-- WhiteSpace and LineTerminator code points of ECMAScript (what `trim` strips). -/
def isWhiteSpaceCode (n : Nat) : Bool :=
  n == 0x09 || n == 0x0A || n == 0x0B || n == 0x0C || n == 0x0D || n == 0x20 ||
  n == 0xA0 || n == 0x1680 || (0x2000 ≤ n && n ≤ 0x200A) || n == 0x2028 ||
  n == 0x2029 || n == 0x202F || n == 0x205F || n == 0x3000 || n == 0xFEFF

/-- Whether `trim` strips the character. -/
def isWhiteSpace (c : Char) : Bool := isWhiteSpaceCode c.toNat

/-- The character class `[\r\n]`. -/
def isLineBreak (c : Char) : Bool := c == '\r' || c == '\n'

/-- `String.prototype.trim`: leading and trailing white space removed. -/
def trim (s : JSString) : JSString :=
  ((s.dropWhile isWhiteSpace).reverse.dropWhile isWhiteSpace).reverse

/-- `String.prototype.includes`: `sub` occurs in `s` at some position. -/
def includes : JSString → JSString → Bool
  | [], sub => sub.isPrefixOf []
  | c :: cs, sub => sub.isPrefixOf (c :: cs) || includes cs sub

/-- The matcher of `/[\r\n]+/` run at the head of `rest`: the number of characters the
greedy match consumes, `0` when there is no match. -/
def matchLineBreaks (rest : JSString) : Nat := (rest.takeWhile isLineBreak).length

/-- The loop of `RegExp.prototype[@@split]` for `/[\r\n]+/`.  `cur` holds the characters
between the end `p` of the last separator and the position `q`, in reverse; `rest` is the
input from `q` on.  A failed match advances `q` by one; a match pushes the substring
`[p, q)` and moves `p` and `q` to its end.  When `q` reaches the end, the substring from
`p` is pushed.  A match of `/[\r\n]+/` is never empty, so the branch `e = p` of the
loop is never taken.  Every iteration consumes input, so `rest.length` iterations
suffice. -/
def splitLoop : Nat → JSString → JSString → List JSString
  | 0, cur, rest => [cur.reverse ++ rest]
  | _ + 1, cur, [] => [cur.reverse]
  | fuel + 1, cur, c :: cs =>
    let e := matchLineBreaks (c :: cs)
    if e = 0 then splitLoop fuel (c :: cur) cs
    else cur.reverse :: splitLoop fuel [] ((c :: cs).drop e)

/-- `s.split(/[\r\n]+/)`.  The empty string gives `[""]`, as the expression does not
match the empty string. -/
def split (s : JSString) : List JSString :=
  if s.isEmpty then [[]] else splitLoop s.length [] s

/-! ## The module -/

/-- The response object handed over by the transport. -/
structure Response where
  status : Nat
  /-- the header object, `none` when the response has none (`undefined`) -/
  headers : Option (List (JSString × JSString))
  responseText : JSValue
  data : JSValue

/-- `const contentType = 'text/plain'` -/
def contentType : JSString := "text/plain".toList

/-- The message of line 64. -/
def invalidStatusMessage (status : Nat) : JSString :=
  "Response status is invalid: ".toList ++ (toString status).toList

/-- The message of line 69. -/
def invalidContentTypeMessage : JSString :=
  "Response content type should be: \"".toList ++ contentType ++ "\"".toList

/-- The message of line 75. -/
def emptyResponseMessage : JSString := "Response is empty".toList

/-- Line 72: `response.responseText ? response.responseText : response.data`. -/
def responseBody (response : Response) : JSValue :=
  if response.responseText.toBoolean then response.responseText else response.data

/-- The callback given to `then` (lines 62-78), run on the settle state of the promise
that `getExternalFile` returns.  The statements run in order, none returns early.  The
result is the settle state the callback leaves behind and the exception it throws, if
any. -/
def onResponse (response : Response) (p0 : PromiseState (List JSString)) :
    PromiseState (List JSString) × Option JSError :=
  let p1 :=
    if response.status ≠ 200 ∧ response.status ≠ 0 then
      reject (.error (invalidStatusMessage response.status)) p0
    else p0
  match response.headers with
  | none => (p1, some .typeError)
  | some headers =>
    let responseContentType := headers.lookup "content-type".toList
    let p2 :=
      match responseContentType with
      | none => reject (.error invalidContentTypeMessage) p1
      | some ct =>
        if ct.isEmpty || !includes ct contentType then
          reject (.error invalidContentTypeMessage) p1
        else p1
    let responseText := responseBody response
    let p3 :=
      if !responseText.toBoolean then reject (.error emptyResponseMessage) p2 else p2
    match responseText with
    | .string s => (resolve (split (trim s)) p3, none)
    | _ => (p3, some .typeError)

/-- `getExternalFile(url)`: the settle state of the returned promise, given the promise
that `executeRequestAsync(url)` returns.  A rejection of the request and an exception
thrown in the callback both reach the `catch` handler, which calls `reject`. -/
def getExternalFile (executeRequestAsync : JSString → PromiseState Response)
    (url : JSString) : PromiseState (List JSString) :=
  match executeRequestAsync url with
  | .pending => .pending
  | .rejected err => reject err .pending
  | .fulfilled response =>
    match onResponse response .pending with
    | (p, some err) => reject err p
    | (p, none) => p

/-- `getLocalFile(url, filterUrlOrigin)`: `.error e` when the call throws `e`, `.ok p`
when it returns a promise in state `p`.  `readFileSync` stands for
`fs.readFileSync(..).toString()`, `pathResolve` for `path.resolve`. -/
def getLocalFile (pathResolve : JSString → JSString → JSString)
    (readFileSync : JSString → Except JSError JSString)
    (url filterUrlOrigin : JSString) : Except JSError (PromiseState (List JSString)) :=
  match readFileSync (pathResolve filterUrlOrigin url) with
  | .error e => .error e
  | .ok file =>
    let lines := split (trim file)
    .ok (resolve lines .pending)

/-! ## Reference definitions

The wording of the specification: trim, then split at every maximal run of `\r` / `\n`;
join with `"\n"`. -/

/-- Splitting at every maximal run of line breaks: the flag says whether the previous
character belonged to a run. -/
def splitRuns : Bool → JSString → List JSString
  | _, [] => [[]]
  | inRun, c :: cs =>
    if isLineBreak c then
      if inRun then splitRuns true cs else [] :: splitRuns true cs
    else
      match splitRuns false cs with
      | seg :: segs => (c :: seg) :: segs
      | [] => [[c]]

/-- Trim, then split at every maximal run of `\r` / `\n`. -/
def trimThenSplit (text : JSString) : List JSString :=
  splitRuns false ((text.dropWhile isWhiteSpace).rdropWhile isWhiteSpace)

/-- Joining with `"\n"`. -/
def joinLines (lines : List JSString) : JSString := ['\n'].intercalate lines

/-- Prepending characters to the first segment. -/
def consHead (pre : JSString) : List JSString → List JSString
  | seg :: segs => (pre ++ seg) :: segs
  | [] => [pre]

/-- Every maximal run of line breaks replaced by one `"\n"`; with the flag set, a run
at the very start is dropped. -/
def collapseRuns : Bool → JSString → JSString
  | _, [] => []
  | inRun, c :: cs =>
    if isLineBreak c then
      if inRun then collapseRuns true cs else '\n' :: collapseRuns true cs
    else c :: collapseRuns false cs

/-- A rule set: every line is non-empty, trimmed and free of line breaks. -/
def IsRuleSet (lines : List JSString) : Prop :=
  ∀ r ∈ lines, r ≠ [] ∧ trim r = r ∧ ∀ c ∈ r, isLineBreak c = false

instance (lines : List JSString) : Decidable (IsRuleSet lines) := by
  unfold IsRuleSet; infer_instance

/-! ## Fixtures -/

/-- A transport that answers every request with the given response. -/
def respondWith (response : Response) : JSString → PromiseState Response :=
  fun _ => .fulfilled response

/-- A header object with a plain-text content type. -/
def plainTextHeaders : List (JSString × JSString) :=
  [("content-type".toList, "text/plain; charset=utf-8".toList)]

/-- A header object with a JSON content type. -/
def jsonHeaders : List (JSString × JSString) :=
  [("content-type".toList, "application/json".toList)]

/-- A filesystem in which every path holds the given text. -/
def fileWith (text : JSString) : JSString → Except JSError JSString :=
  fun _ => .ok text

/-- A filesystem in which no path exists. -/
def noFile : JSString → Except JSError JSString :=
  fun _ => .error (.external "ENOENT".toList)

/-- A path resolution that appends the path to the origin. -/
def joinPath (filterUrlOrigin url : JSString) : JSString := filterUrlOrigin ++ url

/-! ## The split loop computes the split at maximal runs -/

theorem consHead_consHead (a b : JSString) (l : List JSString) :
    consHead a (consHead b l) = consHead (a ++ b) l := by
  cases l <;> simp [consHead]

theorem consHead_nil (l : List JSString) (h : l ≠ []) : consHead [] l = l := by
  cases l with
  | nil => exact absurd rfl h
  | cons seg segs => simp [consHead]

theorem splitRuns_ne_nil (b : Bool) (s : JSString) : splitRuns b s ≠ [] := by
  induction s generalizing b with
  | nil => simp [splitRuns]
  | cons c cs ih =>
    unfold splitRuns
    by_cases hc : isLineBreak c = true
    · cases b <;> simp [hc, ih]
    · simp only [hc]
      cases h : splitRuns false cs <;> simp

theorem splitRuns_cons_of_not (b : Bool) (c : Char) (cs : JSString)
    (hc : isLineBreak c = false) :
    splitRuns b (c :: cs) = consHead [c] (splitRuns false cs) := by
  rw [splitRuns]
  simp only [hc]
  cases h : splitRuns false cs <;> simp [consHead]

theorem splitRuns_cons_of_lineBreak_true (c : Char) (cs : JSString)
    (hc : isLineBreak c = true) : splitRuns true (c :: cs) = splitRuns true cs := by
  rw [splitRuns]; simp [hc]

theorem splitRuns_cons_of_lineBreak_false (c : Char) (cs : JSString)
    (hc : isLineBreak c = true) : splitRuns false (c :: cs) = [] :: splitRuns true cs := by
  rw [splitRuns]; simp [hc]

theorem splitRuns_true_eq_dropWhile (s : JSString) :
    splitRuns true s = splitRuns false (s.dropWhile isLineBreak) := by
  induction s with
  | nil => simp [splitRuns]
  | cons c cs ih =>
    by_cases hc : isLineBreak c = true
    · rw [splitRuns_cons_of_lineBreak_true c cs hc, List.dropWhile_cons_of_pos hc, ih]
    · have hc' : isLineBreak c = false := by simpa using hc
      rw [List.dropWhile_cons_of_neg hc, splitRuns_cons_of_not true c cs hc',
        splitRuns_cons_of_not false c cs hc']

theorem matchLineBreaks_cons_of_not (c : Char) (cs : JSString)
    (hc : isLineBreak c = false) : matchLineBreaks (c :: cs) = 0 := by
  simp [matchLineBreaks, List.takeWhile_cons, hc]

theorem matchLineBreaks_cons_of_lineBreak (c : Char) (cs : JSString)
    (hc : isLineBreak c = true) : matchLineBreaks (c :: cs) ≠ 0 := by
  simp [matchLineBreaks, List.takeWhile_cons, hc]

theorem drop_matchLineBreaks (s : JSString) :
    s.drop (matchLineBreaks s) = s.dropWhile isLineBreak := by
  induction s with
  | nil => simp [matchLineBreaks]
  | cons c cs ih =>
    by_cases hc : isLineBreak c = true
    · simpa [matchLineBreaks, List.takeWhile_cons, hc] using ih
    · simp [matchLineBreaks, List.takeWhile_cons, hc]

theorem length_dropWhile_le (p : Char → Bool) (s : JSString) :
    (s.dropWhile p).length ≤ s.length :=
  (List.dropWhile_suffix p).length_le

/-- With at least `rest.length` iterations the loop returns the split at maximal runs,
the pending characters `cur` in front of the first segment. -/
theorem splitLoop_eq (fuel : Nat) (cur rest : JSString) (h : rest.length ≤ fuel) :
    splitLoop fuel cur rest = consHead cur.reverse (splitRuns false rest) := by
  induction fuel generalizing cur rest with
  | zero =>
    have : rest = [] := List.length_eq_zero.mp (Nat.le_zero.mp h)
    subst this
    simp [splitLoop, splitRuns, consHead]
  | succ fuel ih =>
    cases rest with
    | nil => simp [splitLoop, splitRuns, consHead]
    | cons c cs =>
      have hlen : cs.length ≤ fuel := by simpa using h
      by_cases hc : isLineBreak c = true
      · have hm := matchLineBreaks_cons_of_lineBreak c cs hc
        have hd : (c :: cs).drop (matchLineBreaks (c :: cs)) = cs.dropWhile isLineBreak := by
          rw [drop_matchLineBreaks, List.dropWhile_cons_of_pos hc]
        have hlen' : (cs.dropWhile isLineBreak).length ≤ fuel :=
          le_trans (length_dropWhile_le _ _) hlen
        rw [splitLoop]
        simp only [hm, if_false, hd]
        rw [ih [] _ hlen', splitRuns_cons_of_lineBreak_false c cs hc,
          splitRuns_true_eq_dropWhile, List.reverse_nil,
          consHead_nil _ (splitRuns_ne_nil _ _)]
        simp [consHead]
      · have hc' : isLineBreak c = false := by simpa using hc
        rw [splitLoop]
        simp only [matchLineBreaks_cons_of_not c cs hc', if_true]
        rw [ih (c :: cur) cs hlen, splitRuns_cons_of_not false c cs hc', consHead_consHead]
        simp

/-- The call `s.split(/[\r\n]+/)` is the split at every maximal run of line breaks. -/
theorem split_eq_splitRuns (s : JSString) : split s = splitRuns false s := by
  unfold split
  cases s with
  | nil => simp [splitRuns]
  | cons c cs =>
    simp only [List.isEmpty_cons, Bool.false_eq_true, if_false]
    rw [splitLoop_eq _ _ _ (le_refl _), List.reverse_nil,
      consHead_nil _ (splitRuns_ne_nil _ _)]

theorem trim_eq (s : JSString) :
    trim s = (s.dropWhile isWhiteSpace).rdropWhile isWhiteSpace := rfl

theorem split_trim_eq (text : JSString) : split (trim text) = trimThenSplit text := by
  rw [split_eq_splitRuns, trim_eq, trimThenSplit]

/-! ## Segments of a split -/

theorem isLineBreak_iff (c : Char) : isLineBreak c = true ↔ c = '\r' ∨ c = '\n' := by
  simp [isLineBreak]

theorem isWhiteSpace_of_isLineBreak (c : Char) (h : isLineBreak c = true) :
    isWhiteSpace c = true := by
  rcases (isLineBreak_iff c).mp h with rfl | rfl <;> decide

theorem not_isLineBreak_of_not_isWhiteSpace (c : Char) (h : isWhiteSpace c = false) :
    isLineBreak c = false := by
  cases hc : isLineBreak c with
  | false => rfl
  | true => rw [isWhiteSpace_of_isLineBreak c hc] at h; exact absurd h (by decide)

theorem getLast?_cons_of_some {a d : Char} {l : JSString} (h : l.getLast? = some d) :
    (a :: l).getLast? = some d := by
  rw [List.getLast?_cons, h]; rfl

/-- No segment of a split contains a line break. -/
theorem splitRuns_no_lineBreak (b : Bool) (s : JSString) :
    ∀ seg ∈ splitRuns b s, ∀ c ∈ seg, isLineBreak c = false := by
  induction s generalizing b with
  | nil => simp [splitRuns]
  | cons c cs ih =>
    by_cases hc : isLineBreak c = true
    · cases b with
      | true => rw [splitRuns_cons_of_lineBreak_true c cs hc]; exact ih true
      | false =>
        rw [splitRuns_cons_of_lineBreak_false c cs hc]
        intro seg hseg
        rcases List.mem_cons.mp hseg with rfl | h
        · simp
        · exact ih true seg h
    · have hc' : isLineBreak c = false := by simpa using hc
      rw [splitRuns_cons_of_not b c cs hc']
      have hne := splitRuns_ne_nil false cs
      cases hs : splitRuns false cs with
      | nil => exact absurd hs hne
      | cons seg0 segs =>
        have ih' := ih false
        rw [hs] at ih'
        intro seg hseg
        simp only [consHead, List.mem_cons] at hseg
        rcases hseg with rfl | h
        · intro d hd
          simp only [List.singleton_append, List.mem_cons] at hd
          rcases hd with rfl | hd
          · exact hc'
          · exact ih' seg0 (List.mem_cons_self _ _) d hd
        · exact ih' seg (List.mem_cons_of_mem _ h)

theorem mem_tail_splitRuns_false (s : JSString) :
    ∀ seg ∈ (splitRuns false s).tail, seg ∈ splitRuns true s := by
  cases s with
  | nil => simp [splitRuns]
  | cons c cs =>
    by_cases hc : isLineBreak c = true
    · rw [splitRuns_cons_of_lineBreak_false c cs hc, splitRuns_cons_of_lineBreak_true c cs hc]
      simp
    · have hc' : isLineBreak c = false := by simpa using hc
      rw [splitRuns_cons_of_not false c cs hc', splitRuns_cons_of_not true c cs hc']
      intro seg hseg
      exact List.mem_of_mem_tail hseg

/-- A text that does not end with a line break and, unless the flag is set, does not
start with one, has only non-empty segments. -/
theorem splitRuns_nonempty (b : Bool) (s : JSString) (hs : s ≠ [])
    (hlast : ∀ c, s.getLast? = some c → isLineBreak c = false)
    (hhead : b = true ∨ ∀ c, s.head? = some c → isLineBreak c = false) :
    ∀ seg ∈ splitRuns b s, seg ≠ [] := by
  induction s generalizing b with
  | nil => exact absurd rfl hs
  | cons c cs ih =>
    by_cases hcs : cs = []
    · subst hcs
      have hc : isLineBreak c = false := hlast c (by simp)
      rw [splitRuns_cons_of_not b c [] hc]
      simp [splitRuns, consHead]
    · have hlast' : ∀ d, cs.getLast? = some d → isLineBreak d = false := by
        intro d hd
        exact hlast d (getLast?_cons_of_some hd)
      have htrue := ih true hcs hlast' (Or.inl rfl)
      by_cases hc : isLineBreak c = true
      · rcases hhead with rfl | hh
        · rw [splitRuns_cons_of_lineBreak_true c cs hc]; exact htrue
        · have := hh c (by simp)
          rw [hc] at this
          exact absurd this (by decide)
      · have hc' : isLineBreak c = false := by simpa using hc
        rw [splitRuns_cons_of_not b c cs hc']
        have hne := splitRuns_ne_nil false cs
        have htail := mem_tail_splitRuns_false cs
        cases hsp : splitRuns false cs with
        | nil => exact absurd hsp hne
        | cons seg0 segs =>
          rw [hsp] at htail
          intro seg hseg
          simp only [consHead, List.mem_cons] at hseg
          rcases hseg with rfl | h
          · simp
          · exact htrue seg (htail seg h)

/-! ## Joining the segments again -/

theorem joinLines_singleton (r : JSString) : joinLines [r] = r := by
  simp [joinLines, List.intercalate, List.intersperse]

theorem joinLines_cons_cons (r r2 : JSString) (rest : List JSString) :
    joinLines (r :: r2 :: rest) = r ++ '\n' :: joinLines (r2 :: rest) := by
  simp [joinLines, List.intercalate, List.intersperse]

theorem joinLines_cons (r : JSString) (rest : List JSString) (h : rest ≠ []) :
    joinLines (r :: rest) = r ++ '\n' :: joinLines rest := by
  cases rest with
  | nil => exact absurd rfl h
  | cons r2 rest => exact joinLines_cons_cons r r2 rest

theorem joinLines_consHead (pre : JSString) (l : List JSString) (h : l ≠ []) :
    joinLines (consHead pre l) = pre ++ joinLines l := by
  cases l with
  | nil => exact absurd rfl h
  | cons seg segs =>
    cases segs with
    | nil => simp [consHead, joinLines_singleton]
    | cons seg2 segs => simp [consHead, joinLines_cons_cons]

/-- Joining the segments with `"\n"` gives the text with every run collapsed. -/
theorem joinLines_splitRuns (b : Bool) (s : JSString) :
    joinLines (splitRuns b s) = collapseRuns b s := by
  induction s generalizing b with
  | nil => simp [splitRuns, collapseRuns, joinLines_singleton]
  | cons c cs ih =>
    by_cases hc : isLineBreak c = true
    · cases b with
      | true =>
        rw [splitRuns_cons_of_lineBreak_true c cs hc, ih true]
        simp [collapseRuns, hc]
      | false =>
        rw [splitRuns_cons_of_lineBreak_false c cs hc,
          joinLines_cons _ _ (splitRuns_ne_nil _ _), ih true]
        simp [collapseRuns, hc]
    · have hc' : isLineBreak c = false := by simpa using hc
      rw [splitRuns_cons_of_not b c cs hc', joinLines_consHead _ _ (splitRuns_ne_nil _ _),
        ih false]
      simp [collapseRuns, hc']

/-- Collapsing the runs does not change the split. -/
theorem splitRuns_collapseRuns (b : Bool) (s : JSString) :
    splitRuns b (collapseRuns b s) = splitRuns b s := by
  induction s generalizing b with
  | nil => simp [collapseRuns]
  | cons c cs ih =>
    by_cases hc : isLineBreak c = true
    · cases b with
      | true =>
        rw [splitRuns_cons_of_lineBreak_true c cs hc]
        simp only [collapseRuns, hc, if_true]
        exact ih true
      | false =>
        rw [splitRuns_cons_of_lineBreak_false c cs hc]
        simp only [collapseRuns, hc, if_true, Bool.false_eq_true, if_false]
        rw [splitRuns_cons_of_lineBreak_false _ _ (by decide), ih true]
    · have hc' : isLineBreak c = false := by simpa using hc
      rw [splitRuns_cons_of_not b c cs hc']
      simp only [collapseRuns, hc', Bool.false_eq_true, if_false]
      rw [splitRuns_cons_of_not b c _ hc', ih false]

theorem collapseRuns_head (s : JSString)
    (h : ∀ c, s.head? = some c → isWhiteSpace c = false) :
    ∀ c, (collapseRuns false s).head? = some c → isWhiteSpace c = false := by
  cases s with
  | nil => simp [collapseRuns]
  | cons c cs =>
    have hw := h c (by simp)
    have hc := not_isLineBreak_of_not_isWhiteSpace c hw
    intro d hd
    simp only [collapseRuns, hc, Bool.false_eq_true, if_false, List.head?_cons,
      Option.some.injEq] at hd
    subst hd
    exact hw

theorem collapseRuns_getLast (b : Bool) (s : JSString) (c : Char)
    (h : s.getLast? = some c) (hc : isLineBreak c = false) :
    (collapseRuns b s).getLast? = some c := by
  induction s generalizing b with
  | nil => simp at h
  | cons c0 cs ih =>
    by_cases hcs : cs = []
    · subst hcs
      simp only [List.getLast?_singleton, Option.some.injEq] at h
      subst h
      simp [collapseRuns, hc]
    · obtain ⟨d, hd⟩ : ∃ d, cs.getLast? = some d := by
        cases hl : cs.getLast? with
        | none => exact absurd (List.getLast?_eq_none_iff.mp hl) hcs
        | some d => exact ⟨d, rfl⟩
      have hdc : d = c := by
        have := getLast?_cons_of_some (a := c0) hd
        rw [h] at this
        exact (Option.some.inj this).symm
      subst hdc
      have ih' := fun b => ih b hd
      unfold collapseRuns
      by_cases h0 : isLineBreak c0 = true
      · cases b with
        | true => simpa [h0] using ih' true
        | false => simpa [h0] using getLast?_cons_of_some (a := '\n') (ih' true)
      · simpa [h0] using getLast?_cons_of_some (a := c0) (ih' false)

/-! ## Trimming -/

theorem trim_eq_self (s : JSString)
    (hhead : ∀ c, s.head? = some c → isWhiteSpace c = false)
    (hlast : ∀ c, s.getLast? = some c → isWhiteSpace c = false) : trim s = s := by
  have h1 : s.dropWhile isWhiteSpace = s := by
    cases s with
    | nil => rfl
    | cons c cs =>
      have := hhead c (by simp)
      simp [List.dropWhile_cons, this]
  have h2 : s.reverse.dropWhile isWhiteSpace = s.reverse := by
    cases hr : s.reverse with
    | nil => rfl
    | cons c cs =>
      have hc : s.getLast? = some c := by
        rw [← List.head?_reverse, hr]; rfl
      have := hlast c hc
      simp [List.dropWhile_cons, this]
  unfold trim
  rw [h1, h2, List.reverse_reverse]

theorem trim_head (s : JSString) :
    ∀ c, (trim s).head? = some c → isWhiteSpace c = false := by
  intro c hc
  have hpre : trim s <+: s.dropWhile isWhiteSpace := by
    rw [trim_eq]; exact List.rdropWhile_prefix _ _
  obtain ⟨t, ht⟩ := hpre
  have hh : (s.dropWhile isWhiteSpace).head? = some c := by
    rw [← ht, List.head?_append, hc]; rfl
  have := List.head?_dropWhile_not isWhiteSpace s
  rw [hh] at this
  exact this

theorem trim_getLast (s : JSString) :
    ∀ c, (trim s).getLast? = some c → isWhiteSpace c = false := by
  intro c hc
  have hh : ((s.dropWhile isWhiteSpace).reverse.dropWhile isWhiteSpace).head? = some c := by
    rw [← List.getLast?_reverse]; exact hc
  have := List.head?_dropWhile_not isWhiteSpace (s.dropWhile isWhiteSpace).reverse
  rw [hh] at this
  exact this

theorem head_of_trim_eq_self (s : JSString) (h : trim s = s) :
    ∀ c, s.head? = some c → isWhiteSpace c = false := by
  have := trim_head s
  rwa [h] at this

theorem getLast_of_trim_eq_self (s : JSString) (h : trim s = s) :
    ∀ c, s.getLast? = some c → isWhiteSpace c = false := by
  have := trim_getLast s
  rwa [h] at this

theorem collapseRuns_getLast_not_whiteSpace (s : JSString)
    (h : ∀ c, s.getLast? = some c → isWhiteSpace c = false) :
    ∀ c, (collapseRuns false s).getLast? = some c → isWhiteSpace c = false := by
  intro c hc
  cases hl : s.getLast? with
  | none =>
    have : s = [] := List.getLast?_eq_none_iff.mp hl
    subst this
    simp [collapseRuns] at hc
  | some d =>
    have hd := h d hl
    have := collapseRuns_getLast false s d hl (not_isLineBreak_of_not_isWhiteSpace d hd)
    rw [hc] at this
    rw [Option.some.inj this]
    exact hd

/-- Parsing the joined parse of a text gives the parse again. -/
theorem trimThenSplit_joinLines_trimThenSplit (text : JSString) :
    split (trim (joinLines (split (trim text)))) = split (trim text) := by
  rw [split_eq_splitRuns (trim text), joinLines_splitRuns,
    trim_eq_self _ (collapseRuns_head _ (trim_head text))
      (collapseRuns_getLast_not_whiteSpace _ (trim_getLast text)),
    split_eq_splitRuns, splitRuns_collapseRuns]

/-! ## Splitting joined lines -/

theorem splitRuns_of_no_lineBreak (b : Bool) (x : JSString)
    (hx : ∀ c ∈ x, isLineBreak c = false) : splitRuns b x = [x] := by
  induction x generalizing b with
  | nil => simp [splitRuns]
  | cons c cs ih =>
    rw [splitRuns_cons_of_not b c cs (hx c (List.mem_cons_self _ _)),
      ih false (fun d hd => hx d (List.mem_cons_of_mem _ hd))]
    simp [consHead]

theorem splitRuns_append_lineBreak (b : Bool) (x rest : JSString) (hne : x ≠ [])
    (hx : ∀ c ∈ x, isLineBreak c = false) :
    splitRuns b (x ++ '\n' :: rest) = x :: splitRuns true rest := by
  induction x generalizing b with
  | nil => exact absurd rfl hne
  | cons c cs ih =>
    have hc := hx c (List.mem_cons_self _ _)
    rw [List.cons_append, splitRuns_cons_of_not b c _ hc]
    by_cases hcs : cs = []
    · subst hcs
      rw [List.nil_append, splitRuns_cons_of_lineBreak_false _ _ (by decide)]
      simp [consHead]
    · rw [ih false hcs (fun d hd => hx d (List.mem_cons_of_mem _ hd))]
      simp [consHead]

/-- Lines without line breaks, none of them empty, come back from the split of their
join. -/
theorem splitRuns_joinLines (b : Bool) (lines : List JSString) (hne : lines ≠ [])
    (h : ∀ r ∈ lines, r ≠ [] ∧ ∀ c ∈ r, isLineBreak c = false) :
    splitRuns b (joinLines lines) = lines := by
  induction lines generalizing b with
  | nil => exact absurd rfl hne
  | cons r rest ih =>
    have hr := h r (List.mem_cons_self _ _)
    by_cases hrest : rest = []
    · subst hrest
      rw [joinLines_singleton, splitRuns_of_no_lineBreak b r hr.2]
    · rw [joinLines_cons r rest hrest, splitRuns_append_lineBreak b r _ hr.1 hr.2,
        ih true hrest (fun r2 h2 => h r2 (List.mem_cons_of_mem _ h2))]

theorem joinLines_head (r : JSString) (rest : List JSString) (hr : r ≠ []) :
    (joinLines (r :: rest)).head? = r.head? := by
  cases r with
  | nil => exact absurd rfl hr
  | cons c cs =>
    cases rest with
    | nil => rw [joinLines_singleton]
    | cons r2 rest => rw [joinLines_cons_cons]; rfl

theorem joinLines_getLast (lines : List JSString) (last : JSString)
    (hl : lines.getLast? = some last) (hne : last ≠ []) :
    (joinLines lines).getLast? = last.getLast? := by
  induction lines with
  | nil => simp at hl
  | cons r rest ih =>
    by_cases hrest : rest = []
    · subst hrest
      simp only [List.getLast?_singleton, Option.some.injEq] at hl
      subst hl
      rw [joinLines_singleton]
    · obtain ⟨r2, rest2, rfl⟩ := List.exists_cons_of_ne_nil hrest
      rw [List.getLast?_cons_cons] at hl
      have ih' := ih hl
      obtain ⟨d, hd⟩ : ∃ d, last.getLast? = some d := by
        cases hq : last.getLast? with
        | none => exact absurd (List.getLast?_eq_none_iff.mp hq) hne
        | some d => exact ⟨d, rfl⟩
      rw [hd] at ih' ⊢
      rw [joinLines_cons_cons, List.getLast?_append, List.getLast?_cons, ih']
      rfl

/-- A non-empty sequence of non-empty trimmed lines has a trimmed join. -/
theorem trim_joinLines (lines : List JSString)
    (h : ∀ r ∈ lines, r ≠ [] ∧ trim r = r) : trim (joinLines lines) = joinLines lines := by
  apply trim_eq_self
  · cases lines with
    | nil => simp [joinLines, List.intercalate]
    | cons r rest =>
      have hr := h r (List.mem_cons_self _ _)
      rw [joinLines_head r rest hr.1]
      exact head_of_trim_eq_self r hr.2
  · cases hl : lines.getLast? with
    | none =>
      have : lines = [] := List.getLast?_eq_none_iff.mp hl
      subst this
      simp [joinLines, List.intercalate]
    | some last =>
      have hlast := h last (List.mem_of_getLast?_eq_some hl)
      rw [joinLines_getLast lines last hl hlast.1]
      exact getLast_of_trim_eq_self last hlast.2

/-! ## First and last segment -/

theorem splitRuns_head_head (b : Bool) (s : JSString) (c : Char) (h : s.head? = some c)
    (hc : isLineBreak c = false) :
    ∃ seg segs, splitRuns b s = (c :: seg) :: segs := by
  cases s with
  | nil => simp at h
  | cons c0 cs =>
    simp only [List.head?_cons, Option.some.injEq] at h
    subst h
    rw [splitRuns_cons_of_not b c0 cs hc]
    have hne := splitRuns_ne_nil false cs
    cases hs : splitRuns false cs with
    | nil => exact absurd hs hne
    | cons seg segs => exact ⟨seg, segs, by simp [consHead]⟩

theorem getLast?_cons_of_some_line {a d : JSString} {l : List JSString}
    (h : l.getLast? = some d) : (a :: l).getLast? = some d := by
  rw [List.getLast?_cons, h]; rfl

theorem splitRuns_getLast_getLast (s : JSString) (c : Char) (hs : s ≠ [])
    (hhead : ∀ d, s.head? = some d → isLineBreak d = false)
    (hlast : s.getLast? = some c) (hc : isLineBreak c = false) :
    ∃ seg, (splitRuns false s).getLast? = some seg ∧ seg.getLast? = some c := by
  cases hl : (splitRuns false s).getLast? with
  | none => exact absurd (List.getLast?_eq_none_iff.mp hl) (splitRuns_ne_nil _ _)
  | some seg =>
    refine ⟨seg, rfl, ?_⟩
    have hne : seg ≠ [] :=
      splitRuns_nonempty false s hs (fun d hd => by rw [hlast] at hd; cases hd; exact hc)
        (Or.inr hhead) seg (List.mem_of_getLast?_eq_some hl)
    rw [← joinLines_getLast _ seg hl hne, joinLines_splitRuns]
    exact collapseRuns_getLast false s c hlast hc

/-! ## The substring test -/

theorem includes_iff (s sub : JSString) : includes s sub = true ↔ sub <:+: s := by
  induction s with
  | nil => simp [includes, List.isPrefixOf_iff_prefix]
  | cons c cs ih =>
    simp only [includes, Bool.or_eq_true, ih, List.isPrefixOf_iff_prefix,
      List.infix_cons_iff]

theorem not_isEmpty_of_includes (ct : JSString) (h : includes ct contentType = true) :
    ct.isEmpty = false := by
  cases ct with
  | nil => exact absurd h (by decide)
  | cons c cs => rfl

/-! ## Settling -/

/-- Once the promise is rejected, the callback leaves it rejected, whatever it does or
throws afterwards. -/
theorem onResponse_of_rejected (response : Response) (e : JSError) :
    (onResponse response (.rejected e)).1 = .rejected e := by
  unfold onResponse
  cases response.headers with
  | none => simp only []; split <;> rfl
  | some headers =>
    simp only []
    cases responseBody response <;>
    cases List.lookup "content-type".toList headers <;>
    simp only [] <;> repeat (first | rfl | split)

theorem getExternalFile_of_rejected (executeRequestAsync : JSString → PromiseState Response)
    (url : JSString) (response : Response) (e : JSError)
    (hresp : executeRequestAsync url = .fulfilled response)
    (h : (onResponse response .pending).1 = .rejected e) :
    getExternalFile executeRequestAsync url = .rejected e := by
  unfold getExternalFile
  rw [hresp]
  simp only []
  cases hr : onResponse response .pending with
  | mk p thrown =>
    rw [hr] at h
    simp only [] at h
    subst h
    cases thrown <;> rfl

theorem onResponse_of_invalid_status (response : Response)
    (hstatus : response.status ≠ 200 ∧ response.status ≠ 0) :
    (onResponse response .pending).1
      = .rejected (.error (invalidStatusMessage response.status)) := by
  have h : onResponse response .pending
      = onResponse response (.rejected (.error (invalidStatusMessage response.status))) := by
    unfold onResponse
    simp only [if_pos hstatus]
    rfl
  rw [h]
  exact onResponse_of_rejected _ _

/-- What the callback does with a response that has a header object, in terms of the
three checks. -/
theorem onResponse_of_headers (response : Response) (headers : List (JSString × JSString))
    (hheaders : response.headers = some headers) (hstatus : response.status = 200 ∨
      response.status = 0) :
    onResponse response .pending =
      (let p2 : PromiseState (List JSString) :=
          match headers.lookup "content-type".toList with
          | none => .rejected (.error invalidContentTypeMessage)
          | some ct =>
            if ct.isEmpty || !includes ct contentType then
              .rejected (.error invalidContentTypeMessage)
            else .pending
        let p3 :=
          if !(responseBody response).toBoolean then reject (.error emptyResponseMessage) p2
          else p2
        match responseBody response with
        | .string s => (resolve (split (trim s)) p3, none)
        | _ => (p3, some .typeError)) := by
  have h1 : ¬ (response.status ≠ 200 ∧ response.status ≠ 0) := by
    rcases hstatus with h | h <;> simp [h]
  unfold onResponse
  rw [hheaders]
  simp only [h1, if_false]
  cases List.lookup "content-type".toList headers with
  | none => rfl
  | some ct =>
    simp only []
    by_cases hc : (ct.isEmpty || !includes ct contentType) = true
    · simp only [hc, if_true]; rfl
    · simp only [hc, if_false, Bool.false_eq_true]

/-- A response that passes the status and the content-type check and has a string
body: rejected as empty when the string is empty, resolved with the parsed body
otherwise. -/
theorem getExternalFile_of_string_body
    (executeRequestAsync : JSString → PromiseState Response) (url : JSString)
    (response : Response) (headers : List (JSString × JSString)) (ct b : JSString)
    (hresp : executeRequestAsync url = .fulfilled response)
    (hstatus : response.status = 200 ∨ response.status = 0)
    (hheaders : response.headers = some headers)
    (hct : headers.lookup "content-type".toList = some ct)
    (hincl : contentType <:+: ct)
    (hbody : responseBody response = .string b) :
    getExternalFile executeRequestAsync url =
      if b.isEmpty then .rejected (.error emptyResponseMessage)
      else .fulfilled (trimThenSplit b) := by
  have hi := (includes_iff ct contentType).mpr hincl
  have he := not_isEmpty_of_includes ct hi
  unfold getExternalFile
  rw [hresp]
  simp only []
  rw [onResponse_of_headers response headers hheaders hstatus, hct, hbody]
  simp only [he, hi, Bool.not_true, Bool.or_self, Bool.false_eq_true, if_false,
    JSValue.toBoolean, Bool.not_not, split_trim_eq]
  cases b <;> rfl

/-- A response that passes the status check and fails the content-type check. -/
theorem getExternalFile_of_invalid_content_type
    (executeRequestAsync : JSString → PromiseState Response) (url : JSString)
    (response : Response) (headers : List (JSString × JSString))
    (hresp : executeRequestAsync url = .fulfilled response)
    (hstatus : response.status = 200 ∨ response.status = 0)
    (hheaders : response.headers = some headers)
    (hct : headers.lookup "content-type".toList = none ∨
      ∃ ct, headers.lookup "content-type".toList = some ct ∧ includes ct contentType = false) :
    getExternalFile executeRequestAsync url = .rejected (.error invalidContentTypeMessage) := by
  apply getExternalFile_of_rejected _ _ _ _ hresp
  rw [onResponse_of_headers response headers hheaders hstatus]
  have hp2 : (match headers.lookup "content-type".toList with
      | none => (.rejected (.error invalidContentTypeMessage) : PromiseState (List JSString))
      | some ct =>
        if ct.isEmpty || !includes ct contentType then
          .rejected (.error invalidContentTypeMessage)
        else .pending) = .rejected (.error invalidContentTypeMessage) := by
    rcases hct with h | ⟨ct, h, hn⟩
    · rw [h]
    · rw [h]; simp [hn]
  simp only [hp2]
  cases responseBody response <;> simp only [] <;> split <;> rfl

theorem trim_of_all_whiteSpace (b : JSString) (h : ∀ c ∈ b, isWhiteSpace c = true) :
    trim b = [] := by
  unfold trim
  rw [List.dropWhile_eq_nil_iff.mpr h]
  rfl

theorem all_whiteSpace_of_trim_eq_nil (text : JSString) (h : trim text = []) :
    ∀ c ∈ text, isWhiteSpace c = true := by
  rw [trim_eq] at h
  have hall := List.rdropWhile_eq_nil_iff.mp h
  apply List.dropWhile_eq_nil_iff.mp
  cases hd : text.dropWhile isWhiteSpace with
  | nil => rfl
  | cons c cs =>
    have hnot := List.head?_dropWhile_not isWhiteSpace text
    rw [hd] at hnot hall
    have hc := hall c (List.mem_cons_self _ _)
    simp only [List.head?_cons] at hnot
    rw [hc] at hnot
    cases hnot

/-! ## Shape of the resolved lines -/

theorem dropWhile_eq_self_of_head (s : JSString)
    (h : ∀ c, s.head? = some c → isWhiteSpace c = false) :
    s.dropWhile isWhiteSpace = s := by
  cases s with
  | nil => rfl
  | cons c cs => simp [List.dropWhile_cons, h c (by simp)]

theorem rdropWhile_eq_self_of_getLast (s : JSString)
    (h : ∀ c, s.getLast? = some c → isWhiteSpace c = false) :
    s.rdropWhile isWhiteSpace = s := by
  unfold List.rdropWhile
  rw [dropWhile_eq_self_of_head s.reverse (by rw [List.head?_reverse]; exact h),
    List.reverse_reverse]

/-- The lines of a text whose trimmed form is not empty. -/
theorem split_trim_shape (text : JSString) (hne : trim text ≠ []) :
    (∀ line ∈ split (trim text), line ≠ [])
    ∧ (∀ first, (split (trim text)).head? = some first →
        first.dropWhile isWhiteSpace = first)
    ∧ (∀ last, (split (trim text)).getLast? = some last →
        last.rdropWhile isWhiteSpace = last) := by
  have hhead : ∀ c, (trim text).head? = some c → isLineBreak c = false :=
    fun c hc => not_isLineBreak_of_not_isWhiteSpace c (trim_head text c hc)
  have hlast : ∀ c, (trim text).getLast? = some c → isLineBreak c = false :=
    fun c hc => not_isLineBreak_of_not_isWhiteSpace c (trim_getLast text c hc)
  rw [split_eq_splitRuns]
  refine ⟨splitRuns_nonempty false _ hne hlast (Or.inr hhead), ?_, ?_⟩
  · intro first hfirst
    obtain ⟨c, hc⟩ : ∃ c, (trim text).head? = some c := by
      cases ht : trim text with
      | nil => exact absurd ht hne
      | cons c cs => exact ⟨c, rfl⟩
    obtain ⟨seg, segs, hs⟩ := splitRuns_head_head false _ c hc (hhead c hc)
    rw [hs] at hfirst
    simp only [List.head?_cons, Option.some.injEq] at hfirst
    subst hfirst
    simp [List.dropWhile_cons, trim_head text c hc]
  · intro last hl
    obtain ⟨c, hc⟩ : ∃ c, (trim text).getLast? = some c := by
      cases ht : (trim text).getLast? with
      | none => exact absurd (List.getLast?_eq_none_iff.mp ht) hne
      | some c => exact ⟨c, rfl⟩
    obtain ⟨seg, hseg, hsc⟩ := splitRuns_getLast_getLast _ c hne hhead hc (hlast c hc)
    rw [hseg] at hl
    cases hl
    apply rdropWhile_eq_self_of_getLast
    intro d hd
    rw [hsc] at hd
    cases hd
    exact trim_getLast text c hc

theorem reject_ne_fulfilled {α : Type} (e : JSError) (p : PromiseState α)
    (h : ∀ v, p ≠ .fulfilled v) : ∀ v, reject e p ≠ .fulfilled v := by
  cases p with
  | pending => intro v hv; cases hv
  | fulfilled w => exact absurd rfl (h w)
  | rejected e0 => intro v hv; cases hv

theorem getLocalFile_of_read (pathResolve : JSString → JSString → JSString)
    (readFileSync : JSString → Except JSError JSString) (url filterUrlOrigin text : JSString)
    (hread : readFileSync (pathResolve filterUrlOrigin url) = .ok text) :
    getLocalFile pathResolve readFileSync url filterUrlOrigin
      = .ok (.fulfilled (split (trim text))) := by
  unfold getLocalFile
  rw [hread]
  rfl

theorem getLocalFile_fulfilled (pathResolve : JSString → JSString → JSString)
    (readFileSync : JSString → Except JSError JSString) (url filterUrlOrigin : JSString)
    (lines : List JSString)
    (h : getLocalFile pathResolve readFileSync url filterUrlOrigin = .ok (.fulfilled lines)) :
    ∃ text, lines = split (trim text) := by
  unfold getLocalFile at h
  cases hr : readFileSync (pathResolve filterUrlOrigin url) with
  | error e => rw [hr] at h; cases h
  | ok text =>
    rw [hr] at h
    refine ⟨text, ?_⟩
    simp only [resolve] at h
    cases h
    rfl

theorem onResponse_fulfilled (response : Response) (lines : List JSString)
    (h : (onResponse response .pending).1 = .fulfilled lines) :
    ∃ text, lines = split (trim text) := by
  unfold onResponse at h
  have h1 : ∀ v, (if response.status ≠ 200 ∧ response.status ≠ 0 then
      reject (.error (invalidStatusMessage response.status))
        (.pending : PromiseState (List JSString))
      else .pending) ≠ .fulfilled v := by
    intro v
    split
    · intro hv; cases hv
    · intro hv; cases hv
  generalize (if response.status ≠ 200 ∧ response.status ≠ 0 then
      reject (.error (invalidStatusMessage response.status))
        (.pending : PromiseState (List JSString))
      else .pending) = p1 at h h1
  cases hh : response.headers with
  | none => rw [hh] at h; exact absurd h (h1 lines)
  | some headers =>
    rw [hh] at h
    simp only [] at h
    have h2 : ∀ v, (match headers.lookup "content-type".toList with
        | none => reject (.error invalidContentTypeMessage) p1
        | some ct =>
          if ct.isEmpty || !includes ct contentType then
            reject (.error invalidContentTypeMessage) p1
          else p1) ≠ .fulfilled v := by
      intro v
      split
      · exact reject_ne_fulfilled _ _ h1 v
      · split
        · exact reject_ne_fulfilled _ _ h1 v
        · exact h1 v
    generalize (match headers.lookup "content-type".toList with
        | none => reject (.error invalidContentTypeMessage) p1
        | some ct =>
          if ct.isEmpty || !includes ct contentType then
            reject (.error invalidContentTypeMessage) p1
          else p1) = p2 at h h2
    have h3 : ∀ v, (if !(responseBody response).toBoolean then
        reject (.error emptyResponseMessage) p2 else p2) ≠ .fulfilled v := by
      intro v
      split
      · exact reject_ne_fulfilled _ _ h2 v
      · exact h2 v
    generalize (if !(responseBody response).toBoolean then
        reject (.error emptyResponseMessage) p2 else p2) = p3 at h h3
    cases hb : responseBody response with
    | string s =>
      rw [hb] at h
      simp only [] at h
      refine ⟨s, ?_⟩
      cases p3 with
      | pending => simp only [resolve] at h; cases h; rfl
      | fulfilled w => exact absurd rfl (h3 w)
      | rejected e => simp only [resolve] at h; cases h
    | undefined => rw [hb] at h; exact absurd h (h3 lines)
    | null => rw [hb] at h; exact absurd h (h3 lines)
    | boolean b => rw [hb] at h; exact absurd h (h3 lines)
    | number n => rw [hb] at h; exact absurd h (h3 lines)
    | object => rw [hb] at h; exact absurd h (h3 lines)

theorem getExternalFile_fulfilled (executeRequestAsync : JSString → PromiseState Response)
    (url : JSString) (lines : List JSString)
    (h : getExternalFile executeRequestAsync url = .fulfilled lines) :
    ∃ text, lines = split (trim text) := by
  unfold getExternalFile at h
  cases hr : executeRequestAsync url with
  | pending => rw [hr] at h; cases h
  | rejected e => rw [hr] at h; cases h
  | fulfilled response =>
    rw [hr] at h
    simp only [] at h
    apply onResponse_fulfilled response
    cases ho : onResponse response .pending with
    | mk p thrown =>
      rw [ho] at h
      cases thrown with
      | none => exact h
      | some err =>
        simp only [] at h ⊢
        cases p with
        | pending => cases h
        | fulfilled w => exact h
        | rejected e => cases h

/-! ## Remote retrieval -/

/-- C1: a response with status 200 or 0, a content type that contains `text/plain` and a
non-empty string body `b` makes `getExternalFile` resolve with `b` trimmed and split at
every maximal run of line breaks. -/
theorem getExternalFile_resolves_with_trimmed_split
    (executeRequestAsync : JSString → PromiseState Response) (url : JSString)
    (response : Response) (headers : List (JSString × JSString)) (ct b : JSString)
    (hresp : executeRequestAsync url = .fulfilled response)
    (hstatus : response.status = 200 ∨ response.status = 0)
    (hheaders : response.headers = some headers)
    (hct : headers.lookup "content-type".toList = some ct)
    (hincl : contentType <:+: ct)
    (hbody : responseBody response = .string b) (hb : b ≠ []) :
    getExternalFile executeRequestAsync url = .fulfilled (trimThenSplit b) := by
  rw [getExternalFile_of_string_body executeRequestAsync url response headers ct b hresp
    hstatus hheaders hct hincl hbody]
  cases b with
  | nil => exact absurd rfl hb
  | cons c cs => rfl

theorem getExternalFile_resolves_with_trimmed_split_witness :
    getExternalFile
        (respondWith ⟨0, some plainTextHeaders, .undefined, .string " a\r\n\nb \n".toList⟩)
        "https://filters.example/f.txt".toList
      = .fulfilled (trimThenSplit " a\r\n\nb \n".toList)
    ∧ trimThenSplit " a\r\n\nb \n".toList = ["a".toList, "b".toList] :=
  ⟨getExternalFile_resolves_with_trimmed_split _ _
      ⟨0, some plainTextHeaders, .undefined, .string " a\r\n\nb \n".toList⟩
      plainTextHeaders "text/plain; charset=utf-8".toList " a\r\n\nb \n".toList
      rfl (Or.inr rfl) rfl (by decide) ⟨[], "; charset=utf-8".toList, rfl⟩ rfl (by decide),
    by decide⟩

/-- C2: a response whose status is neither 200 nor 0 makes `getExternalFile` reject with
the invalid-status error, whatever its headers and body are, absent ones included; the
promise is never resolved. -/
theorem getExternalFile_rejects_invalid_status
    (executeRequestAsync : JSString → PromiseState Response) (url : JSString)
    (response : Response)
    (hresp : executeRequestAsync url = .fulfilled response)
    (h200 : response.status ≠ 200) (h0 : response.status ≠ 0) :
    getExternalFile executeRequestAsync url
        = .rejected (.error (invalidStatusMessage response.status))
    ∧ ∀ lines, getExternalFile executeRequestAsync url ≠ .fulfilled lines := by
  have h := getExternalFile_of_rejected executeRequestAsync url response _ hresp
    (onResponse_of_invalid_status response ⟨h200, h0⟩)
  refine ⟨h, ?_⟩
  intro lines hl
  rw [h] at hl
  cases hl

theorem getExternalFile_rejects_invalid_status_witness :
    (getExternalFile (respondWith ⟨404, none, .undefined, .undefined⟩) "u".toList
        = .rejected (.error (invalidStatusMessage 404))
      ∧ ∀ lines, getExternalFile (respondWith ⟨404, none, .undefined, .undefined⟩) "u".toList
          ≠ .fulfilled lines)
    ∧ invalidStatusMessage 404 = "Response status is invalid: 404".toList :=
  ⟨getExternalFile_rejects_invalid_status _ _ ⟨404, none, .undefined, .undefined⟩ rfl
      (by decide) (by decide),
    by decide⟩

/-- C3: a response with status 200 or 0 whose header object has no `content-type` entry,
or one that does not contain `text/plain`, makes `getExternalFile` reject with the
invalid-content-type error, whatever the body is; the promise is never resolved. -/
theorem getExternalFile_rejects_invalid_content_type
    (executeRequestAsync : JSString → PromiseState Response) (url : JSString)
    (response : Response) (headers : List (JSString × JSString))
    (hresp : executeRequestAsync url = .fulfilled response)
    (hstatus : response.status = 200 ∨ response.status = 0)
    (hheaders : response.headers = some headers)
    (hct : headers.lookup "content-type".toList = none ∨
      ∃ ct, headers.lookup "content-type".toList = some ct ∧ ¬ contentType <:+: ct) :
    getExternalFile executeRequestAsync url = .rejected (.error invalidContentTypeMessage)
    ∧ ∀ lines, getExternalFile executeRequestAsync url ≠ .fulfilled lines := by
  have h := getExternalFile_of_invalid_content_type executeRequestAsync url response headers
    hresp hstatus hheaders (by
      rcases hct with h | ⟨ct, h, hn⟩
      · exact Or.inl h
      · refine Or.inr ⟨ct, h, ?_⟩
        cases hi : includes ct contentType with
        | false => rfl
        | true => exact absurd ((includes_iff _ _).mp hi) hn)
  refine ⟨h, ?_⟩
  intro lines hl
  rw [h] at hl
  cases hl

theorem getExternalFile_rejects_invalid_content_type_witness :
    (getExternalFile (respondWith ⟨200, some jsonHeaders, .undefined, .string "rule".toList⟩)
        "u".toList = .rejected (.error invalidContentTypeMessage)
      ∧ ∀ lines,
        getExternalFile (respondWith ⟨200, some jsonHeaders, .undefined, .string "rule".toList⟩)
          "u".toList ≠ .fulfilled lines)
    ∧ invalidContentTypeMessage = "Response content type should be: \"text/plain\"".toList :=
  ⟨getExternalFile_rejects_invalid_content_type _ _
      ⟨200, some jsonHeaders, .undefined, .string "rule".toList⟩ jsonHeaders rfl (Or.inl rfl) rfl
      (Or.inr ⟨"application/json".toList, by decide,
        fun h => absurd ((includes_iff _ _).mpr h) (by decide)⟩),
    by decide⟩

/-- C4, as stated, fails: a body of white space only is not rejected as empty, the
promise resolves with the single empty line. -/
theorem getExternalFile_whitespace_body_resolves :
    (∀ c ∈ " \n\t".toList, isWhiteSpace c = true)
    ∧ getExternalFile (respondWith ⟨200, some plainTextHeaders, .undefined, .string " \n\t".toList⟩)
        "u".toList = .fulfilled [[]]
    ∧ getExternalFile (respondWith ⟨200, some plainTextHeaders, .undefined, .string " \n\t".toList⟩)
        "u".toList ≠ .rejected (.error emptyResponseMessage) := by
  decide

/-- C4, amended: with status 200 and a `text/plain` content type, the empty string as
body makes `getExternalFile` reject with the empty-response error; a non-empty body of
white space only is not rejected, the promise resolves with the single empty line. -/
theorem getExternalFile_rejects_empty_body
    (executeRequestAsync : JSString → PromiseState Response) (url : JSString)
    (response : Response) (headers : List (JSString × JSString)) (ct b : JSString)
    (hresp : executeRequestAsync url = .fulfilled response)
    (hstatus : response.status = 200)
    (hheaders : response.headers = some headers)
    (hct : headers.lookup "content-type".toList = some ct)
    (hincl : contentType <:+: ct)
    (hbody : responseBody response = .string b) :
    (b = [] → getExternalFile executeRequestAsync url = .rejected (.error emptyResponseMessage)
      ∧ ∀ lines, getExternalFile executeRequestAsync url ≠ .fulfilled lines)
    ∧ (b ≠ [] → (∀ c ∈ b, isWhiteSpace c = true) →
        getExternalFile executeRequestAsync url = .fulfilled [[]]) := by
  have h := getExternalFile_of_string_body executeRequestAsync url response headers ct b hresp
    (Or.inl hstatus) hheaders hct hincl hbody
  constructor
  · intro hb
    subst hb
    have h' : getExternalFile executeRequestAsync url
        = .rejected (.error emptyResponseMessage) := by rw [h]; rfl
    refine ⟨h', ?_⟩
    intro lines hl
    rw [h'] at hl
    cases hl
  · intro hb hws
    rw [h, ← split_trim_eq, trim_of_all_whiteSpace b hws]
    cases b with
    | nil => exact absurd rfl hb
    | cons c cs => rfl

theorem getExternalFile_rejects_empty_body_witness :
    getExternalFile (respondWith ⟨200, some plainTextHeaders, .string [], .string []⟩)
        "u".toList = .rejected (.error emptyResponseMessage)
    ∧ ∀ lines, getExternalFile (respondWith ⟨200, some plainTextHeaders, .string [], .string []⟩)
        "u".toList ≠ .fulfilled lines :=
  (getExternalFile_rejects_empty_body _ _
      ⟨200, some plainTextHeaders, .string [], .string []⟩ plainTextHeaders
      "text/plain; charset=utf-8".toList [] rfl rfl rfl (by decide)
      ⟨[], "; charset=utf-8".toList, rfl⟩ rfl).1 rfl

/-- C9, as stated, fails: a text field that is present but empty is passed over, the
data field is used and the promise resolves with its lines. -/
theorem getExternalFile_empty_text_field_uses_data :
    responseBody ⟨200, some plainTextHeaders, .string [], .string "rule".toList⟩
        = .string "rule".toList
    ∧ getExternalFile
        (respondWith ⟨200, some plainTextHeaders, .string [], .string "rule".toList⟩)
        "u".toList = .fulfilled ["rule".toList]
    ∧ getExternalFile
        (respondWith ⟨200, some plainTextHeaders, .string [], .string "rule".toList⟩)
        "u".toList ≠ .rejected (.error emptyResponseMessage) := by
  decide

/-- C9, amended: for a response that passes the status and content-type checks,
`getExternalFile` takes the body from the text field when that field is a non-empty
string, whatever the data field holds, and from the data field when the text field is
absent or the empty string: a non-empty data string is parsed, an empty one is rejected
as an empty response. -/
theorem getExternalFile_body_choice
    (executeRequestAsync : JSString → PromiseState Response) (url : JSString)
    (response : Response) (headers : List (JSString × JSString)) (ct : JSString)
    (hresp : executeRequestAsync url = .fulfilled response)
    (hstatus : response.status = 200 ∨ response.status = 0)
    (hheaders : response.headers = some headers)
    (hct : headers.lookup "content-type".toList = some ct)
    (hincl : contentType <:+: ct) :
    (∀ s, response.responseText = .string s → s ≠ [] →
        getExternalFile executeRequestAsync url = .fulfilled (trimThenSplit s))
    ∧ (∀ d, response.responseText = .undefined ∨ response.responseText = .string [] →
        response.data = .string d → d ≠ [] →
        getExternalFile executeRequestAsync url = .fulfilled (trimThenSplit d))
    ∧ (response.responseText = .undefined ∨ response.responseText = .string [] →
        response.data = .string [] →
        getExternalFile executeRequestAsync url = .rejected (.error emptyResponseMessage)) := by
  have key := fun b hbody => getExternalFile_of_string_body executeRequestAsync url response
    headers ct b hresp hstatus hheaders hct hincl hbody
  have hfalsy : response.responseText = .undefined ∨ response.responseText = .string [] →
      responseBody response = response.data := by
    intro h
    unfold responseBody
    rcases h with h | h <;> rw [h] <;> rfl
  refine ⟨?_, ?_, ?_⟩
  · intro s hs hne
    have hbody : responseBody response = .string s := by
      unfold responseBody
      rw [hs]
      cases s with
      | nil => exact absurd rfl hne
      | cons c cs => rfl
    rw [key s hbody]
    cases s with
    | nil => exact absurd rfl hne
    | cons c cs => rfl
  · intro d ht hd hne
    rw [key d (by rw [hfalsy ht, hd])]
    cases d with
    | nil => exact absurd rfl hne
    | cons c cs => rfl
  · intro ht hd
    rw [key [] (by rw [hfalsy ht, hd])]
    rfl

theorem getExternalFile_body_choice_witness :
    getExternalFile
        (respondWith ⟨200, some plainTextHeaders, .string "a\nb".toList, .string "c".toList⟩)
        "u".toList = .fulfilled (trimThenSplit "a\nb".toList) :=
  (getExternalFile_body_choice _ _
      ⟨200, some plainTextHeaders, .string "a\nb".toList, .string "c".toList⟩ plainTextHeaders
      "text/plain; charset=utf-8".toList rfl (Or.inl rfl) rfl (by decide)
      ⟨[], "; charset=utf-8".toList, rfl⟩).1 "a\nb".toList rfl (by decide)

/-! ## Local retrieval -/

/-- C5, as stated, fails: an empty file resolves with the single empty line, and a line
keeps the white space next to a line break. -/
theorem getLocalFile_lines_not_rule_set :
    getLocalFile joinPath (fileWith []) "f.txt".toList "/".toList = .ok (.fulfilled [[]])
    ∧ getLocalFile joinPath (fileWith "a \nb".toList) "f.txt".toList "/".toList
        = .ok (.fulfilled ["a ".toList, "b".toList])
    ∧ trim "a ".toList ≠ "a ".toList
    ∧ getExternalFile (respondWith ⟨200, some plainTextHeaders, .undefined, .string " ".toList⟩)
        "u".toList = .fulfilled [[]] :=
  ⟨rfl, rfl, by decide, by decide⟩

/-- C5, amended: every sequence that `getLocalFile` or `getExternalFile` resolves with is
the trimmed and split form of a text; no element contains a line break; when the text
is empty or white space only the sequence is the single empty string; otherwise every
element is non-empty, the first has no leading and the last no trailing white space. -/
theorem resolved_lines_shape (pathResolve : JSString → JSString → JSString)
    (readFileSync : JSString → Except JSError JSString) (path filterUrlOrigin : JSString)
    (executeRequestAsync : JSString → PromiseState Response) (url : JSString)
    (lines : List JSString)
    (h : getLocalFile pathResolve readFileSync path filterUrlOrigin = .ok (.fulfilled lines)
      ∨ getExternalFile executeRequestAsync url = .fulfilled lines) :
    ∃ text, lines = split (trim text)
      ∧ (∀ line ∈ lines, ∀ c ∈ line, isLineBreak c = false)
      ∧ ((∀ c ∈ text, isWhiteSpace c = true) → lines = [[]])
      ∧ (¬ (∀ c ∈ text, isWhiteSpace c = true) →
          (∀ line ∈ lines, line ≠ [])
          ∧ (∀ first, lines.head? = some first → first.dropWhile isWhiteSpace = first)
          ∧ (∀ last, lines.getLast? = some last → last.rdropWhile isWhiteSpace = last)) := by
  obtain ⟨text, rfl⟩ : ∃ text, lines = split (trim text) := by
    rcases h with h | h
    · exact getLocalFile_fulfilled _ _ _ _ _ h
    · exact getExternalFile_fulfilled _ _ _ h
  refine ⟨text, rfl, ?_, ?_, ?_⟩
  · rw [split_eq_splitRuns]
    exact splitRuns_no_lineBreak false _
  · intro hws
    rw [trim_of_all_whiteSpace text hws]
    rfl
  · intro hws
    apply split_trim_shape
    intro ht
    apply hws
    exact all_whiteSpace_of_trim_eq_nil text ht

theorem resolved_lines_shape_witness :
    ∃ text, ["a ".toList, " b".toList] = split (trim text)
      ∧ (∀ line ∈ ["a ".toList, " b".toList], ∀ c ∈ line, isLineBreak c = false)
      ∧ ((∀ c ∈ text, isWhiteSpace c = true) → ["a ".toList, " b".toList] = [[]])
      ∧ (¬ (∀ c ∈ text, isWhiteSpace c = true) →
          (∀ line ∈ ["a ".toList, " b".toList], line ≠ [])
          ∧ (∀ first, ["a ".toList, " b".toList].head? = some first →
              first.dropWhile isWhiteSpace = first)
          ∧ (∀ last, ["a ".toList, " b".toList].getLast? = some last →
              last.rdropWhile isWhiteSpace = last)) :=
  resolved_lines_shape joinPath (fileWith "\n a \r\n b\n".toList) "f.txt".toList "/".toList
    (respondWith ⟨500, none, .undefined, .undefined⟩) "u".toList
    ["a ".toList, " b".toList] (Or.inl rfl)

/-- C6, as stated, fails at the empty rule set: the file is empty and `getLocalFile`
resolves with the single empty line. -/
theorem getLocalFile_empty_rule_set_round_trip_fails :
    IsRuleSet []
    ∧ getLocalFile joinPath (fileWith (joinLines [])) "f.txt".toList "/".toList
        = .ok (.fulfilled [[]])
    ∧ getLocalFile joinPath (fileWith (joinLines [])) "f.txt".toList "/".toList
        ≠ .ok (.fulfilled []) :=
  ⟨by decide, rfl, fun h => by cases h⟩

/-- C6, amended: for every non-empty rule set (non-empty trimmed lines without line
breaks), `getLocalFile` on a file that holds the lines joined by `"\n"` resolves with
exactly these lines. -/
theorem getLocalFile_round_trip (pathResolve : JSString → JSString → JSString)
    (readFileSync : JSString → Except JSError JSString) (url filterUrlOrigin : JSString)
    (rules : List JSString) (hne : rules ≠ []) (hrules : IsRuleSet rules)
    (hread : readFileSync (pathResolve filterUrlOrigin url) = .ok (joinLines rules)) :
    getLocalFile pathResolve readFileSync url filterUrlOrigin = .ok (.fulfilled rules) := by
  rw [getLocalFile_of_read _ _ _ _ _ hread,
    trim_joinLines rules (fun r hr => ⟨(hrules r hr).1, (hrules r hr).2.1⟩),
    split_eq_splitRuns,
    splitRuns_joinLines false rules hne (fun r hr => ⟨(hrules r hr).1, (hrules r hr).2.2⟩)]

theorem getLocalFile_round_trip_witness :
    getLocalFile joinPath
        (fileWith (joinLines ["||ads.example^".toList, "@@||ok.example^ $image".toList]))
        "f.txt".toList "/".toList
      = .ok (.fulfilled ["||ads.example^".toList, "@@||ok.example^ $image".toList]) :=
  getLocalFile_round_trip joinPath _ "f.txt".toList "/".toList
    ["||ads.example^".toList, "@@||ok.example^ $image".toList] (by decide) (by decide) rfl

/-- C7: for a readable file with text `t`, `getLocalFile` resolves with `t` trimmed and
split at every maximal run of line breaks, the value `getExternalFile` resolves with for
the body `t`; the content `"rule1\nrule2\r\nrule3"` gives the three rules. -/
theorem getLocalFile_resolves_with_trimmed_split
    (pathResolve : JSString → JSString → JSString)
    (readFileSync : JSString → Except JSError JSString) (url filterUrlOrigin t : JSString)
    (hread : readFileSync (pathResolve filterUrlOrigin url) = .ok t) :
    getLocalFile pathResolve readFileSync url filterUrlOrigin
        = .ok (.fulfilled (trimThenSplit t))
    ∧ (t ≠ [] → getExternalFile (respondWith ⟨200, some plainTextHeaders, .string t, .undefined⟩)
        url = .fulfilled (trimThenSplit t))
    ∧ (t = "rule1\nrule2\r\nrule3".toList →
        getLocalFile pathResolve readFileSync url filterUrlOrigin
          = .ok (.fulfilled ["rule1".toList, "rule2".toList, "rule3".toList])) := by
  have h := getLocalFile_of_read _ _ _ _ _ hread
  rw [split_trim_eq] at h
  refine ⟨h, ?_, ?_⟩
  · intro hne
    rw [getExternalFile_of_string_body (respondWith ⟨200, some plainTextHeaders, .string t,
      .undefined⟩) url ⟨200, some plainTextHeaders, .string t, .undefined⟩ plainTextHeaders
      "text/plain; charset=utf-8".toList t rfl (Or.inl rfl) rfl (by decide)
      ⟨[], "; charset=utf-8".toList, rfl⟩ (by
        cases t with
        | nil => exact absurd rfl hne
        | cons c cs => rfl)]
    cases t with
    | nil => exact absurd rfl hne
    | cons c cs => rfl
  · intro ht
    rw [h, ht]
    rfl

theorem getLocalFile_resolves_with_trimmed_split_witness :
    getLocalFile joinPath (fileWith "rule1\n\n\r\nrule2\n".toList) "f.txt".toList "/".toList
        = .ok (.fulfilled (trimThenSplit "rule1\n\n\r\nrule2\n".toList))
    ∧ trimThenSplit "rule1\n\n\r\nrule2\n".toList = ["rule1".toList, "rule2".toList] :=
  ⟨(getLocalFile_resolves_with_trimmed_split joinPath
      (fileWith "rule1\n\n\r\nrule2\n".toList) "f.txt".toList "/".toList
      "rule1\n\n\r\nrule2\n".toList rfl).1,
    by decide⟩

/-- C8: when the read fails, `getLocalFile` throws the filesystem error to its caller
and returns no promise, neither a rejected one nor any other. -/
theorem getLocalFile_throws_on_read_failure :
    getLocalFile joinPath noFile "missing.txt".toList "/filters/".toList
        = .error (.external "ENOENT".toList)
    ∧ ∀ promise, getLocalFile joinPath noFile "missing.txt".toList "/filters/".toList
        ≠ .ok promise :=
  ⟨rfl, fun _ h => by cases h⟩

/-- C10: parsing is idempotent through a `"\n"` join: for every text, the parse of the
joined parse is the parse, and a file holding the joined parse resolves as the file
holding the text does. -/
theorem parse_join_parse (text : JSString) :
    split (trim (joinLines (split (trim text)))) = split (trim text)
    ∧ ∀ (pathResolve : JSString → JSString → JSString) (url filterUrlOrigin : JSString),
        getLocalFile pathResolve (fileWith (joinLines (split (trim text)))) url filterUrlOrigin
          = getLocalFile pathResolve (fileWith text) url filterUrlOrigin := by
  have h := trimThenSplit_joinLines_trimThenSplit text
  refine ⟨h, ?_⟩
  intro pathResolve url filterUrlOrigin
  rw [getLocalFile_of_read pathResolve (fileWith text) url filterUrlOrigin text rfl,
    getLocalFile_of_read pathResolve (fileWith (joinLines (split (trim text)))) url
      filterUrlOrigin _ rfl, h]

end FileDownloadWrapper
